import Mathlib

/-
Verification of the Entity-Component-System core of the space-ranger
repository (src/space_ranger/core): the entity-component table
(ec_table.py), the system / pipeline machinery (system.py), and the
legacy EcsManager (ecs_manager.py).

Python dicts are embedded as association lists in insertion order:
`dict.get` is `alistGet`, `dict[k] = v` is `alistInsert` (replace in
place if the key is present, append otherwise), `del dict[k]` is
`alistRemove`.  Raising code is embedded as `Except`; methods that
mutate `self` return the resulting table next to the `Except` result,
so a raise can be observed together with the state at raise time.
-/

set_option autoImplicit false

namespace SpaceRanger

universe u v

variable {κ : Type u} {α : Type v} [DecidableEq κ]

/-- Python `d.get(k)` on an association list: value of the first pair whose
key is `k`, if any. -/
def alistGet (d : List (κ × α)) (k : κ) : Option α :=
  match d with
  | [] => none
  | (k1, v) :: rest => if k1 = k then some v else alistGet rest k

/-- Python `d[k] = v` on an association list: replace the first pair with key
`k` in place, or append a new pair when the key is absent. -/
def alistInsert (d : List (κ × α)) (k : κ) (v : α) : List (κ × α) :=
  match d with
  | [] => [(k, v)]
  | (k1, v1) :: rest => if k1 = k then (k, v) :: rest else (k1, v1) :: alistInsert rest k v

/-- Python `del d[k]` on an association list: drop the first pair with key `k`. -/
def alistRemove (d : List (κ × α)) (k : κ) : List (κ × α) :=
  match d with
  | [] => []
  | (k1, v1) :: rest => if k1 = k then rest else (k1, v1) :: alistRemove rest k

/-- Python `d[k] = f(d[k])` on an association list: rewrite the value of the
first pair with key `k`, leave the list unchanged when the key is absent. -/
def alistModify (d : List (κ × α)) (k : κ) (f : α → α) : List (κ × α) :=
  match d with
  | [] => []
  | (k1, v1) :: rest => if k1 = k then (k1, f v1) :: rest else (k1, v1) :: alistModify rest k f

/-- Entity UID. Modelled from the spec: `generate_entity_uid` and the new
`Entity` class are missing from src (only `ec_table.py` and the tests
reference them); the spec calls an EntityIdentity an opaque process-unique
value, embedded here as a natural number. -/
abbrev EntityUid := Nat

/-- Component keys: in the source the type of a component object is its key
(`Component.get_key` returns `type(self)`, component/_component.py).  The
mandatory built-in `EntityData` type is one key; every other component type
is an opaque tag. -/
inductive ComponentKey : Type
  | entityData : ComponentKey
  | other : Nat → ComponentKey
deriving DecidableEq, Repr

/-- Component values.  `EntityData` is modelled from the spec: its class is
missing from src; per the spec and tests/test_core/test_ec_table.py it
carries the entity name, the entity uid and an enabled flag defaulting to
true.  Any other component carries its type tag and a payload that
distinguishes instances of the same type. -/
inductive Component : Type
  | entityData (name : String) (uid : EntityUid) (enabled : Bool)
  | other (tag : Nat) (payload : Nat)
deriving DecidableEq, Repr

/-- `Component.get_key`: the type of the component acts as its key
(component/_component.py, `return type(self)`). -/
def Component.get_key : Component → ComponentKey
  | .entityData _ _ _ => .entityData
  | .other tag _ => .other tag

/-- A row of the entity table: the per-entity Python dict mapping a component
key to the attached component instance. -/
abbrev Row := List (ComponentKey × Component)

/-- The entity handle `Entity(uid, table)` returned by the table: a pair of
an identity and a table back-reference; equality is by identity, so only the
uid is kept. -/
structure Entity : Type where
  uid : EntityUid
deriving DecidableEq, Repr

/-- Errors raised by ec_table.py / ecs_manager.py (errors.py). -/
inductive EcError : Type
  | unknownEntityUid (uid : EntityUid)
  | componentsCollision (uid : EntityUid) (c : Component)
  | entityDataRemovalAttempt (uid : EntityUid)
deriving DecidableEq, Repr

/-- Python runtime values in play at the `get_entity_by_uid` interface: the
MISSING sentinel, None, plain data, or an entity handle.  `default` may be
any of these; MISSING stands for "argument not supplied". -/
inductive PyValue : Type
  | missing : PyValue
  | pynone : PyValue
  | int (n : Int) : PyValue
  | str (s : String) : PyValue
  | entity (e : Entity) : PyValue
deriving DecidableEq, Repr

/-- `EcTable.__init__`: the `_table` dict, `EntityUid -> (ComponentKey -> Component)`. -/
structure EcTable : Type where
  table : List (EntityUid × Row)
deriving DecidableEq, Repr

/-- The uids of the live rows of the table, in row order. -/
def tableKeys (t : EcTable) : List EntityUid :=
  t.table.map Prod.fst

/-- `EcTable.get_entity_by_uid(uid, default=MISSING)` (ec_table.py 62-81):
`entity = self._table.get(uid, MISSING)`; if that is MISSING and no default
was supplied raise `UnknownEntityUidError`, if a default was supplied return
it unchanged; otherwise return the handle `Entity(uid, self)`.  A stored row
is never the MISSING sentinel, so `is MISSING` is exactly absence. -/
def EcTable.get_entity_by_uid (t : EcTable) (uid : EntityUid)
    (default : PyValue := .missing) : Except EcError PyValue :=
  match alistGet t.table uid with
  | none =>
      if default = .missing then .error (.unknownEntityUid uid) else .ok default
  | some _ => .ok (.entity ⟨uid⟩)

/-- `EcTable.get_component(entity_uid, component_key)` (ec_table.py 117-127):
`self._table.get(entity_uid, {}).get(component_key)`. -/
def EcTable.get_component (t : EcTable) (uid : EntityUid) (key : ComponentKey) :
    Option Component :=
  alistGet ((alistGet t.table uid).getD []) key

/-- `EcTable.delete_entity(uid)` (ec_table.py 83-95): raise
`UnknownEntityUidError` when `uid not in self._table`, else `del self._table[uid]`. -/
def EcTable.delete_entity (t : EcTable) (uid : EntityUid) :
    Except EcError Unit × EcTable :=
  match alistGet t.table uid with
  | none => (.error (.unknownEntityUid uid), t)
  | some _ => (.ok (), ⟨alistRemove t.table uid⟩)

/-- `EcTable.add_component(entity_uid, component)` (ec_table.py 99-115):
first `get_entity_by_uid` (raises `UnknownEntityUidError` when absent), then
`if self.get_component(entity_uid, key):` raise `ComponentsCollisionError`
(component instances are dataclasses and always truthy, so the test is
exactly presence), else `self._table[entity_uid][key] = component`. -/
def EcTable.add_component (t : EcTable) (uid : EntityUid) (c : Component) :
    Except EcError Unit × EcTable :=
  match alistGet t.table uid with
  | none => (.error (.unknownEntityUid uid), t)
  | some _ =>
      if (t.get_component uid c.get_key).isSome then
        (.error (.componentsCollision uid c), t)
      else
        (.ok (), ⟨alistModify t.table uid (fun row => alistInsert row c.get_key c)⟩)

/-- `EcTable.remove_component(entity_uid, component_key)` (ec_table.py
129-153): first `get_entity_by_uid` (raises `UnknownEntityUidError` when
absent); then return silently when the component is absent; then raise
`EntityDataRemovalAttemptError` when the key is `EntityData`; else
`del self._table[entity_uid][component_key]`. -/
def EcTable.remove_component (t : EcTable) (uid : EntityUid) (key : ComponentKey) :
    Except EcError Unit × EcTable :=
  match alistGet t.table uid with
  | none => (.error (.unknownEntityUid uid), t)
  | some _ =>
      match t.get_component uid key with
      | none => (.ok (), t)
      | some _ =>
          if key = ComponentKey.entityData then
            (.error (.entityDataRemovalAttempt uid), t)
          else
            (.ok (), ⟨alistModify t.table uid (fun row => alistRemove row key)⟩)

/-- `EcTable.get_entities_by_components(*components_keys, partitial=False)`
(ec_table.py 186-200): `match_f = any if partitial else all`; the set of
entity handles from `iter_entities` whose components match.  Per-key
matching is truthiness of `e.get_component(k)`, i.e. presence.  The Python
set is embedded as the list of matching handles in row order; the claims
are stated through membership. -/
def EcTable.get_entities_by_components (t : EcTable) (components_keys : List ComponentKey)
    (partitial : Bool := false) : List Entity :=
  let match_f : EntityUid → Bool := fun uid =>
    if partitial then components_keys.any (fun k => (t.get_component uid k).isSome)
    else components_keys.all (fun k => (t.get_component uid k).isSome)
  ((tableKeys t).filter match_f).map Entity.mk

/-- State of the identity allocator. -/
structure UidGen : Type where
  next : Nat
deriving DecidableEq, Repr

/-- Modelled from the spec: `generate_entity_uid` is missing from src (only
ec_table.py and the tests reference it).  The spec describes an
EntityIdentity as an opaque, process-unique value that is never reused
within a process run, and tests/test_core/test_generate_entity_uid.py
checks that repeated calls give pairwise distinct values; embedded as a
counter that returns a fresh value and advances. -/
def generate_entity_uid (g : UidGen) : EntityUid × UidGen :=
  (g.next, ⟨g.next + 1⟩)

/-- The collision-avoidance loop of `EcTable.create_entity` (ec_table.py
47-53): `uid = generate_entity_uid()` then `while self._table.get(uid) is
not None: uid = generate_entity_uid()`, evaluated with explicit fuel;
`none` stands for the loop still running when the fuel is exhausted. -/
def createUidLoop (t : EcTable) : Nat → UidGen → Option (EntityUid × UidGen)
  | 0, _ => none
  | fuel + 1, g =>
      let p := generate_entity_uid g
      if (alistGet t.table p.1).isSome then createUidLoop t fuel p.2 else some p

/-- A key on which an association list lookup succeeds occurs among the keys. -/
def alistGet_isSome_then_mem : ∀ (d : List (κ × α)) (k : κ),
    (alistGet d k).isSome → k ∈ d.map Prod.fst := by
  intro d k h
  induction d with
  | nil => simp [alistGet] at h
  | cons p rest ih =>
      by_cases hk : p.1 = k
      · simp [hk]
      · rw [show p = (p.1, p.2) from rfl, alistGet] at h
        simp only [if_neg hk] at h
        simpa using Or.inr (ih h)

/-- Filtering with a stronger predicate keeps at most as many elements. -/
def length_filter_le_of_imp : ∀ (l : List Nat) (p q : Nat → Bool),
    (∀ x, p x = true → q x = true) →
    (l.filter p).length ≤ (l.filter q).length := by
  intro l p q hpq
  induction l with
  | nil => simp
  | cons a l ih =>
      by_cases hp : p a = true
      · have hq := hpq a hp
        simp [List.filter_cons, hp, hq]
        omega
      · by_cases hq : q a = true
        · simp [List.filter_cons, hp, hq]
          omega
        · simp [List.filter_cons, hp, hq]
          exact ih

/-- Raising the lower bound of a ge-filter past a value present in the list
strictly shrinks the filtered length. -/
def length_filter_succ_lt : ∀ (l : List Nat) (n : Nat), n ∈ l →
    (l.filter (fun k => decide (n + 1 ≤ k))).length
      < (l.filter (fun k => decide (n ≤ k))).length := by
  intro l n hmem
  induction l with
  | nil => cases hmem
  | cons a l ih =>
      rcases List.mem_cons.mp hmem with rfl | hmem2
      · have hle := length_filter_le_of_imp l (fun k => decide (n + 1 ≤ k))
          (fun k => decide (n ≤ k)) (fun x hx => by
            simp only [decide_eq_true_eq] at hx ⊢
            omega)
        simp [List.filter_cons]
        omega
      · by_cases h1 : n + 1 ≤ a
        · have h0 : n ≤ a := by omega
          have := ih hmem2
          simp [List.filter_cons, h1, h0]
          omega
        · by_cases h0 : n ≤ a
          · have := ih hmem2
            simp [List.filter_cons, h1, h0]
            omega
          · simp [List.filter_cons, h1, h0]
            exact ih hmem2

/-- With more fuel than there are table keys at or above the cursor, the
collision loop terminates (pigeonhole over the strictly advancing cursor). -/
def createUidLoop_isSome_of_lt : ∀ (t : EcTable) (fuel : Nat) (g : UidGen),
    ((tableKeys t).filter (fun k => decide (g.next ≤ k))).length < fuel →
    (createUidLoop t fuel g).isSome := by
  intro t fuel
  induction fuel with
  | zero => intro g h; omega
  | succ f ih =>
      intro g h
      by_cases hmem : (alistGet t.table g.next).isSome
      · simp only [createUidLoop, generate_entity_uid, hmem, if_pos]
        have hk : g.next ∈ tableKeys t := alistGet_isSome_then_mem _ _ hmem
        have hdec := length_filter_succ_lt (tableKeys t) g.next hk
        apply ih
        show (List.filter (fun k => decide (g.next + 1 ≤ k)) (tableKeys t)).length < f
        omega
      · simp [createUidLoop, generate_entity_uid, hmem]

/-- The uid finally produced by the collision loop of `create_entity`,
together with the advanced allocator.  The fuel `|table| + 1` always
suffices: the loop visits pairwise distinct candidates, so it cannot
collide with the table more than `|table|` times. -/
def pickUid (t : EcTable) (g : UidGen) : EntityUid × UidGen :=
  (createUidLoop t ((tableKeys t).length + 1) g).get
    (createUidLoop_isSome_of_lt t ((tableKeys t).length + 1) g
      (Nat.lt_succ_of_le (List.length_filter_le _ _)))

/-- The `for component in components: self.add_component(uid, component)`
loop of `create_entity` (ec_table.py 57-58); a collision raised by
`add_component` aborts the loop with the components added so far kept. -/
def addComponentList : EcTable → EntityUid → List Component →
    Except EcError Unit × EcTable
  | t, _, [] => (.ok (), t)
  | t, uid, c :: rest =>
      match t.add_component uid c with
      | (.ok _, t1) => addComponentList t1 uid rest
      | (.error e, t1) => (.error e, t1)

/-- `EcTable.create_entity(name, *components)` (ec_table.py 39-60): allocate
a uid through the collision loop, insert the row holding the mandatory
`EntityData(name, uid)` entry, add the supplied components through
`add_component`, and return the handle from `get_entity_by_uid(uid)`. -/
def EcTable.create_entity (t : EcTable) (g : UidGen) (name : String)
    (components : List Component) : Except EcError Entity × EcTable × UidGen :=
  let p := pickUid t g
  let t1 : EcTable :=
    ⟨alistInsert t.table p.1 [(ComponentKey.entityData, Component.entityData name p.1 true)]⟩
  match addComponentList t1 p.1 components with
  | (.ok _, t2) => (.ok ⟨p.1⟩, t2, p.2)
  | (.error e, t2) => (.error e, t2, p.2)

/-- `EcsManager.get_entity_by_uid(uid, default=MISSING)` (ecs_manager.py
72-88), the earlier generation of the table:
`entity = self.entity_component_table.get(uid, default)`; it raises
`UnknownEntityUidError` only when that value is the MISSING sentinel, i.e.
when the uid is absent AND no default was supplied; in every other case it
falls through to `return Entity(self, uid)` - even when the uid is absent
and a default was supplied. -/
def ecsManagerGetEntityByUid (t : EcTable) (uid : EntityUid)
    (default : PyValue := .missing) : Except EcError PyValue :=
  if alistGet t.table uid = none ∧ default = PyValue.missing then
    .error (.unknownEntityUid uid)
  else
    .ok (.entity ⟨uid⟩)

/-- `System` (system.py 41-52): of its fields only the set of required
component keys matters for matching; embedded as a list of keys. -/
structure System : Type where
  required_components : List ComponentKey
deriving DecidableEq, Repr

/-- `System.match_entity(entity_uid)` (system.py 54-71):
`all(self._ec_table.get_component(entity_uid, k) is not None for k in
self._required_components)`. -/
def System.match_entity (s : System) (t : EcTable) (uid : EntityUid) : Bool :=
  s.required_components.all (fun k => (t.get_component uid k).isSome)

/-- `SystemsPipeline` (system.py 157-173): a set of systems; embedded as the
list of system identifiers in iteration order (Python set semantics: the
members are pairwise distinct, the order is unspecified). -/
structure SystemsPipeline : Type where
  systems : List Nat
deriving DecidableEq, Repr

/-- `SystemsPipeline.run(app)` (system.py 175-181): `for system in
self._systems: system.run(app)`; the observable behavior is the execution
trace, one execution per member in iteration order. -/
def SystemsPipeline.run (p : SystemsPipeline) : List Nat :=
  p.systems

/-- `SystemsSchedule` (system.py 184-198): the start and the update pipeline. -/
structure SystemsSchedule : Type where
  start : SystemsPipeline
  update : SystemsPipeline
deriving DecidableEq, Repr

/-- Modelled from the spec: the Scene that drives a `SystemsSchedule` is
missing from src (the scene.py present is an earlier generation without
pipelines).  Per the spec, `Scene.start()` runs the start pipeline exactly
once; its execution trace is that single pipeline run. -/
def sceneStartTrace (sch : SystemsSchedule) : List Nat :=
  sch.start.run

/-- Modelled from the spec: every `Scene.update()` call runs the update
pipeline exactly once; this is the concatenated execution trace of `n`
successive `Scene.update()` calls. -/
def sceneUpdatesTrace (sch : SystemsSchedule) (n : Nat) : List Nat :=
  (List.replicate n sch.update.run).flatten

/-- The mutating table operations reachable from client code. -/
inductive EcOp : Type
  | create (name : String) (components : List Component)
  | delete (uid : EntityUid)
  | addComp (uid : EntityUid) (c : Component)
  | removeComp (uid : EntityUid) (key : ComponentKey)
deriving DecidableEq, Repr

/-- A process-run state: the table together with the allocator state. -/
structure EcState : Type where
  table : EcTable
  gen : UidGen
deriving DecidableEq, Repr

/-- A fresh process run: empty table, allocator at its first value. -/
def initState : EcState := ⟨⟨[]⟩, ⟨0⟩⟩

/-- One operation applied to a run state; a raising call leaves the state
exactly as the Python method leaves the object at raise time. -/
def applyOp (s : EcState) : EcOp → EcState
  | .create name comps =>
      let r := s.table.create_entity s.gen name comps
      ⟨r.2.1, r.2.2⟩
  | .delete uid => ⟨(s.table.delete_entity uid).2, s.gen⟩
  | .addComp uid c => ⟨(s.table.add_component uid c).2, s.gen⟩
  | .removeComp uid key => ⟨(s.table.remove_component uid key).2, s.gen⟩

/-- The state after a whole sequence of operations. -/
def runOps (s : EcState) : List EcOp → EcState
  | [] => s
  | op :: rest => runOps (applyOp s op) rest

/-- The identities allocated by the create operations of a run, in order (an
identity is consumed by `create_entity` even when a component collision
makes the call raise after allocation). -/
def allocTrace (s : EcState) : List EcOp → List EntityUid
  | [] => []
  | op :: rest =>
      match op with
      | .create _ _ => (pickUid s.table s.gen).1 :: allocTrace (applyOp s op) rest
      | _ => allocTrace (applyOp s op) rest

/-- All live uids are below the allocator cursor: every uid in the table was
handed out by the allocator earlier in the run. -/
def UidsBounded (s : EcState) : Prop :=
  ∀ uid ∈ tableKeys s.table, uid < s.gen.next

/-- Every live row carries exactly one `EntityData` entry. -/
def HasOneEntityData (t : EcTable) : Prop :=
  ∀ p ∈ t.table, (p.2.map Prod.fst).count ComponentKey.entityData = 1

/-- A sample ordinary component type key. -/
def kA : ComponentKey := ComponentKey.other 1

/-- A sample component of type `kA`. -/
def cA : Component := Component.other 1 0

/-- A sample component of a second type. -/
def cB : Component := Component.other 2 0

/-- A sample live row: the mandatory EntityData entry plus one component. -/
def rowSample : Row :=
  [(ComponentKey.entityData, Component.entityData "player" 0 true), (kA, cA)]

/-- A sample table with one live entity of uid 0. -/
def tSample : EcTable := ⟨[(0, rowSample)]⟩

/-- A sample schedule: systems 1 and 2 in the start pipeline, system 3 in
the update pipeline. -/
def schSample : SystemsSchedule := ⟨⟨[1, 2]⟩, ⟨[3]⟩⟩

theorem alistGet_eq_none_iff (d : List (κ × α)) (k : κ) :
    alistGet d k = none ↔ k ∉ d.map Prod.fst := by
  induction d with
  | nil => simp [alistGet]
  | cons p rest ih =>
      obtain ⟨k1, v⟩ := p
      by_cases hk : k1 = k
      · subst hk
        simp [alistGet]
      · simp [alistGet, hk, ih, Ne.symm hk]

theorem alistGet_isSome_iff (d : List (κ × α)) (k : κ) :
    (alistGet d k).isSome ↔ k ∈ d.map Prod.fst := by
  rw [Option.isSome_iff_ne_none, ne_eq, alistGet_eq_none_iff, not_not]

theorem mem_tableKeys_iff (t : EcTable) (u : EntityUid) :
    u ∈ tableKeys t ↔ (alistGet t.table u).isSome := by
  rw [tableKeys, alistGet_isSome_iff]

theorem alistGet_eq_some_mem {d : List (κ × α)} {k : κ} {v : α}
    (h : alistGet d k = some v) : (k, v) ∈ d := by
  induction d with
  | nil => simp [alistGet] at h
  | cons p rest ih =>
      obtain ⟨k1, v1⟩ := p
      by_cases hk : k1 = k
      · subst hk
        simp [alistGet] at h
        simp [h]
      · simp only [alistGet, if_neg hk] at h
        exact List.mem_cons_of_mem _ (ih h)

theorem alistGet_alistInsert_self (d : List (κ × α)) (k : κ) (v : α) :
    alistGet (alistInsert d k v) k = some v := by
  induction d with
  | nil => simp [alistInsert, alistGet]
  | cons p rest ih =>
      obtain ⟨k1, v1⟩ := p
      by_cases hk : k1 = k
      · simp [alistInsert, alistGet, hk]
      · simp [alistInsert, alistGet, hk, ih]

theorem alistGet_alistInsert_ne (d : List (κ × α)) (k k1 : κ) (v : α)
    (hne : k1 ≠ k) : alistGet (alistInsert d k v) k1 = alistGet d k1 := by
  induction d with
  | nil => simp [alistInsert, alistGet, Ne.symm hne]
  | cons p rest ih =>
      obtain ⟨k2, v2⟩ := p
      by_cases hk : k2 = k
      · subst hk
        simp [alistInsert, alistGet, Ne.symm hne]
      · by_cases hk1 : k2 = k1
        · simp [alistInsert, alistGet, hk, hk1, hne]
        · simp [alistInsert, alistGet, hk, hk1, ih]

theorem alistGet_alistModify_self (d : List (κ × α)) (k : κ) (f : α → α) :
    alistGet (alistModify d k f) k = (alistGet d k).map f := by
  induction d with
  | nil => simp [alistModify, alistGet]
  | cons p rest ih =>
      obtain ⟨k1, v1⟩ := p
      by_cases hk : k1 = k
      · simp [alistModify, alistGet, hk]
      · simp [alistModify, alistGet, hk, ih]

theorem alistGet_alistModify_ne (d : List (κ × α)) (k k1 : κ) (f : α → α)
    (hne : k1 ≠ k) : alistGet (alistModify d k f) k1 = alistGet d k1 := by
  induction d with
  | nil => simp [alistModify, alistGet]
  | cons p rest ih =>
      obtain ⟨k2, v2⟩ := p
      by_cases hk : k2 = k
      · subst hk
        simp [alistModify, alistGet, Ne.symm hne]
      · by_cases hk1 : k2 = k1
        · simp [alistModify, alistGet, hk, hk1, hne]
        · simp [alistModify, alistGet, hk, hk1, ih]

theorem map_fst_alistModify (d : List (κ × α)) (k : κ) (f : α → α) :
    (alistModify d k f).map Prod.fst = d.map Prod.fst := by
  induction d with
  | nil => simp [alistModify]
  | cons p rest ih =>
      obtain ⟨k1, v1⟩ := p
      by_cases hk : k1 = k
      · simp [alistModify, hk]
      · simp [alistModify, hk, ih]

theorem mem_map_fst_alistRemove {d : List (κ × α)} {k u : κ}
    (h : u ∈ (alistRemove d k).map Prod.fst) : u ∈ d.map Prod.fst := by
  induction d with
  | nil => simp [alistRemove] at h
  | cons p rest ih =>
      obtain ⟨k1, v1⟩ := p
      by_cases hk : k1 = k
      · simp only [alistRemove, if_pos hk] at h
        simp [h]
      · simp only [alistRemove, if_neg hk, List.map_cons, List.mem_cons] at h ⊢
        rcases h with h | h
        · exact Or.inl h
        · exact Or.inr (ih h)

theorem mem_map_fst_alistInsert {d : List (κ × α)} {k u : κ} {v : α}
    (h : u ∈ (alistInsert d k v).map Prod.fst) : u = k ∨ u ∈ d.map Prod.fst := by
  induction d with
  | nil =>
      simp [alistInsert] at h
      exact Or.inl h
  | cons p rest ih =>
      obtain ⟨k1, v1⟩ := p
      by_cases hk : k1 = k
      · simp only [alistInsert, if_pos hk, List.map_cons, List.mem_cons] at h
        rcases h with h | h
        · exact Or.inl h
        · exact Or.inr (by simp [h])
      · simp only [alistInsert, if_neg hk, List.map_cons, List.mem_cons] at h ⊢
        rcases h with h | h
        · exact Or.inr (Or.inl h)
        · rcases ih h with h | h
          · exact Or.inl h
          · exact Or.inr (Or.inr h)

theorem mem_alistInsert {d : List (κ × α)} {k : κ} {v : α} {p : κ × α}
    (h : p ∈ alistInsert d k v) : p = (k, v) ∨ p ∈ d := by
  induction d with
  | nil =>
      simp [alistInsert] at h
      exact Or.inl h
  | cons q rest ih =>
      obtain ⟨k1, v1⟩ := q
      by_cases hk : k1 = k
      · simp only [alistInsert, if_pos hk, List.mem_cons] at h
        rcases h with h | h
        · exact Or.inl h
        · exact Or.inr (List.mem_cons_of_mem _ h)
      · simp only [alistInsert, if_neg hk, List.mem_cons] at h
        rcases h with h | h
        · exact Or.inr (by simp [h])
        · rcases ih h with h | h
          · exact Or.inl h
          · exact Or.inr (List.mem_cons_of_mem _ h)

theorem mem_alistRemove {d : List (κ × α)} {k : κ} {p : κ × α}
    (h : p ∈ alistRemove d k) : p ∈ d := by
  induction d with
  | nil => simp [alistRemove] at h
  | cons q rest ih =>
      obtain ⟨k1, v1⟩ := q
      by_cases hk : k1 = k
      · simp only [alistRemove, if_pos hk] at h
        exact List.mem_cons_of_mem _ h
      · simp only [alistRemove, if_neg hk, List.mem_cons] at h
        rcases h with h | h
        · simp [h]
        · exact List.mem_cons_of_mem _ (ih h)

theorem mem_alistModify {d : List (κ × α)} {k : κ} {f : α → α} {p : κ × α}
    (h : p ∈ alistModify d k f) :
    p ∈ d ∨ ∃ v, alistGet d k = some v ∧ p = (k, f v) := by
  induction d with
  | nil => simp [alistModify] at h
  | cons q rest ih =>
      obtain ⟨k1, v1⟩ := q
      by_cases hk : k1 = k
      · subst hk
        simp only [alistModify, if_pos, List.mem_cons] at h
        rcases h with h | h
        · exact Or.inr ⟨v1, by simp [alistGet], h⟩
        · exact Or.inl (List.mem_cons_of_mem _ h)
      · simp only [alistModify, if_neg hk, List.mem_cons] at h
        rcases h with h | h
        · exact Or.inl (by simp [h])
        · rcases ih h with h | ⟨v, hv, hp⟩
          · exact Or.inl (List.mem_cons_of_mem _ h)
          · exact Or.inr ⟨v, by simp [alistGet, hk, hv], hp⟩

theorem map_fst_alistInsert_not_mem {d : List (κ × α)} {k : κ} (v : α)
    (h : k ∉ d.map Prod.fst) :
    (alistInsert d k v).map Prod.fst = d.map Prod.fst ++ [k] := by
  induction d with
  | nil => simp [alistInsert]
  | cons q rest ih =>
      obtain ⟨k1, v1⟩ := q
      simp only [List.map_cons, List.mem_cons] at h
      push_neg at h
      obtain ⟨hk1, hrest⟩ := h
      simp [alistInsert, Ne.symm hk1, ih hrest]

theorem count_fst_alistRemove_of_ne {d : List (κ × α)} {k a : κ} (hne : k ≠ a) :
    ((alistRemove d k).map Prod.fst).count a = (d.map Prod.fst).count a := by
  induction d with
  | nil => simp [alistRemove]
  | cons q rest ih =>
      obtain ⟨k1, v1⟩ := q
      by_cases hk : k1 = k
      · subst hk
        simp [alistRemove, List.count_cons, Ne.symm hne]
      · simp [alistRemove, hk, List.count_cons, ih]

theorem get_component_isSome_live {t : EcTable} {uid : EntityUid} {key : ComponentKey}
    (h : (t.get_component uid key).isSome) : (alistGet t.table uid).isSome := by
  by_contra hno
  rw [Option.not_isSome_iff_eq_none] at hno
  rw [EcTable.get_component, hno] at h
  simp [alistGet] at h

theorem get_component_eq_row {t : EcTable} {uid : EntityUid} {row : Row}
    (h : alistGet t.table uid = some row) (key : ComponentKey) :
    t.get_component uid key = alistGet row key := by
  rw [EcTable.get_component, h]
  rfl

theorem tableKeys_add_component (t : EcTable) (uid : EntityUid) (c : Component) :
    tableKeys (t.add_component uid c).2 = tableKeys t := by
  unfold EcTable.add_component
  split
  · rfl
  · split
    · rfl
    · simp [tableKeys, map_fst_alistModify]

theorem tableKeys_remove_component (t : EcTable) (uid : EntityUid) (key : ComponentKey) :
    tableKeys (t.remove_component uid key).2 = tableKeys t := by
  unfold EcTable.remove_component
  split
  · rfl
  · split
    · rfl
    · split
      · rfl
      · simp [tableKeys, map_fst_alistModify]

theorem tableKeys_addComponentList : ∀ (cs : List Component) (t : EcTable) (uid : EntityUid),
    tableKeys (addComponentList t uid cs).2 = tableKeys t := by
  intro cs
  induction cs with
  | nil => intro t uid; rfl
  | cons c rest ih =>
      intro t uid
      have hk := tableKeys_add_component t uid c
      unfold addComponentList
      rcases hadd : t.add_component uid c with ⟨r, t1⟩
      rw [hadd] at hk
      cases r with
      | ok u =>
          show tableKeys (addComponentList t1 uid rest).2 = tableKeys t
          rw [ih t1 uid]
          simpa using hk
      | error e => simpa using hk

theorem mem_tableKeys_delete {t : EcTable} {uid u : EntityUid}
    (h : u ∈ tableKeys (t.delete_entity uid).2) : u ∈ tableKeys t := by
  unfold EcTable.delete_entity at h
  rcases h1 : alistGet t.table uid with _ | row
  · rw [h1] at h
    exact h
  · rw [h1] at h
    simp only [tableKeys] at h ⊢
    exact mem_map_fst_alistRemove h

theorem pickUid_eq_of_bounded {t : EcTable} {g : UidGen}
    (h : ∀ u ∈ tableKeys t, u < g.next) :
    pickUid t g = (g.next, ⟨g.next + 1⟩) := by
  have hnone : alistGet t.table g.next = none := by
    rw [alistGet_eq_none_iff]
    intro hmem
    exact absurd (h _ hmem) (lt_irrefl _)
  unfold pickUid
  simp [createUidLoop, generate_entity_uid, hnone]

theorem create_entity_eq {t : EcTable} {g : UidGen} (name : String) (cs : List Component)
    (h : ∀ u ∈ tableKeys t, u < g.next) :
    t.create_entity g name cs =
      (match addComponentList
          ⟨alistInsert t.table g.next
            [(ComponentKey.entityData, Component.entityData name g.next true)]⟩
          g.next cs with
       | (.ok _, t2) => (.ok ⟨g.next⟩, t2, ⟨g.next + 1⟩)
       | (.error e, t2) => (.error e, t2, ⟨g.next + 1⟩)) := by
  unfold EcTable.create_entity
  rw [pickUid_eq_of_bounded h]

theorem create_keys_of_bounded {s : EcState} (h : UidsBounded s)
    (name : String) (cs : List Component) :
    tableKeys (s.table.create_entity s.gen name cs).2.1
        = tableKeys s.table ++ [s.gen.next]
    ∧ (s.table.create_entity s.gen name cs).2.2 = ⟨s.gen.next + 1⟩ := by
  rw [create_entity_eq name cs h]
  have hnm : s.gen.next ∉ tableKeys s.table :=
    fun hm => absurd (h _ hm) (lt_irrefl _)
  have hins : tableKeys
      (⟨alistInsert s.table.table s.gen.next
        [(ComponentKey.entityData, Component.entityData name s.gen.next true)]⟩ : EcTable)
      = tableKeys s.table ++ [s.gen.next] := by
    simp only [tableKeys]
    exact map_fst_alistInsert_not_mem _ hnm
  have hkeys := tableKeys_addComponentList cs
    ⟨alistInsert s.table.table s.gen.next
      [(ComponentKey.entityData, Component.entityData name s.gen.next true)]⟩ s.gen.next
  rcases hadd : addComponentList
      ⟨alistInsert s.table.table s.gen.next
        [(ComponentKey.entityData, Component.entityData name s.gen.next true)]⟩
      s.gen.next cs with ⟨r, t2⟩
  rw [hadd] at hkeys
  cases r with
  | ok u =>
      refine ⟨?_, rfl⟩
      show tableKeys t2 = tableKeys s.table ++ [s.gen.next]
      have hk2 : tableKeys t2
          = tableKeys (⟨alistInsert s.table.table s.gen.next
            [(ComponentKey.entityData, Component.entityData name s.gen.next true)]⟩ : EcTable) :=
        hkeys
      exact hk2.trans hins
  | error e =>
      refine ⟨?_, rfl⟩
      show tableKeys t2 = tableKeys s.table ++ [s.gen.next]
      have hk2 : tableKeys t2
          = tableKeys (⟨alistInsert s.table.table s.gen.next
            [(ComponentKey.entityData, Component.entityData name s.gen.next true)]⟩ : EcTable) :=
        hkeys
      exact hk2.trans hins

theorem uidsBounded_applyOp {s : EcState} (op : EcOp) (h : UidsBounded s) :
    UidsBounded (applyOp s op) ∧ s.gen.next ≤ (applyOp s op).gen.next := by
  cases op with
  | create name comps =>
      obtain ⟨hkeys, hgen⟩ := create_keys_of_bounded h name comps
      constructor
      · intro u hu
        simp only [applyOp] at hu ⊢
        rw [hgen]
        rw [hkeys] at hu
        rcases List.mem_append.mp hu with hu | hu
        · exact Nat.lt_succ_of_lt (h u hu)
        · simp only [List.mem_singleton] at hu
          subst hu
          exact Nat.lt_succ_self _
      · simp only [applyOp]
        rw [hgen]
        exact Nat.le_succ _
  | delete uid =>
      refine ⟨?_, le_refl _⟩
      intro u hu
      simp only [applyOp] at hu ⊢
      exact h u (mem_tableKeys_delete hu)
  | addComp uid c =>
      refine ⟨?_, le_refl _⟩
      intro u hu
      simp only [applyOp] at hu ⊢
      rw [tableKeys_add_component] at hu
      exact h u hu
  | removeComp uid key =>
      refine ⟨?_, le_refl _⟩
      intro u hu
      simp only [applyOp] at hu ⊢
      rw [tableKeys_remove_component] at hu
      exact h u hu

theorem uidsBounded_runOps : ∀ (ops : List EcOp) (s : EcState), UidsBounded s →
    UidsBounded (runOps s ops) ∧ s.gen.next ≤ (runOps s ops).gen.next := by
  intro ops
  induction ops with
  | nil => intro s h; exact ⟨h, le_refl _⟩
  | cons op rest ih =>
      intro s h
      obtain ⟨h1, h2⟩ := uidsBounded_applyOp op h
      obtain ⟨h3, h4⟩ := ih _ h1
      exact ⟨h3, le_trans h2 h4⟩

theorem uidsBounded_init : UidsBounded initState := by
  intro u hu
  simp [initState, tableKeys] at hu

theorem runOps_append : ∀ (l1 l2 : List EcOp) (s : EcState),
    runOps s (l1 ++ l2) = runOps (runOps s l1) l2 := by
  intro l1
  induction l1 with
  | nil => intro l2 s; rfl
  | cons op rest ih =>
      intro l2 s
      simp only [List.cons_append, runOps]
      exact ih l2 (applyOp s op)

theorem allocTrace_bounds : ∀ (ops : List EcOp) (s : EcState), UidsBounded s →
    (∀ u ∈ allocTrace s ops, s.gen.next ≤ u)
    ∧ (allocTrace s ops).Pairwise (· < ·) := by
  intro ops
  induction ops with
  | nil => intro s h; simp [allocTrace]
  | cons op rest ih =>
      intro s h
      obtain ⟨hb, hg⟩ := uidsBounded_applyOp op h
      obtain ⟨ih1, ih2⟩ := ih _ hb
      cases op with
      | create name comps =>
          have hp := pickUid_eq_of_bounded (t := s.table) (g := s.gen) h
          have hgen : (applyOp s (EcOp.create name comps)).gen = ⟨s.gen.next + 1⟩ := by
            simp only [applyOp]
            exact (create_keys_of_bounded h name comps).2
          constructor
          · intro u hu
            simp only [allocTrace, List.mem_cons] at hu
            rcases hu with hu | hu
            · rw [hu, hp]
            · have h1 := ih1 u hu
              rw [hgen] at h1
              have h2 : s.gen.next + 1 ≤ u := h1
              omega
          · refine List.Pairwise.cons ?_ ih2
            intro u hu
            have h1 := ih1 u hu
            rw [hgen] at h1
            have h2 : s.gen.next + 1 ≤ u := h1
            rw [hp]
            show s.gen.next < u
            omega
      | delete uid =>
          exact ⟨fun u hu => ih1 u hu, ih2⟩
      | addComp uid c =>
          exact ⟨fun u hu => ih1 u hu, ih2⟩
      | removeComp uid key =>
          exact ⟨fun u hu => ih1 u hu, ih2⟩

theorem count_entityData_alistInsert_ne {row : Row} {key : ComponentKey} (c : Component)
    (hne : key ≠ ComponentKey.entityData) (hnm : key ∉ row.map Prod.fst) :
    ((alistInsert row key c).map Prod.fst).count ComponentKey.entityData
      = (row.map Prod.fst).count ComponentKey.entityData := by
  rw [map_fst_alistInsert_not_mem c hnm, List.count_append]
  have h0 : List.count ComponentKey.entityData [key] = 0 :=
    List.count_eq_zero.mpr (by simpa using Ne.symm hne)
  omega

theorem mem_of_count_entityData_one {row : Row}
    (h : (row.map Prod.fst).count ComponentKey.entityData = 1) :
    ComponentKey.entityData ∈ row.map Prod.fst := by
  have : 0 < (row.map Prod.fst).count ComponentKey.entityData := by omega
  exact List.count_pos_iff.mp this

theorem hasOne_add_component (t : EcTable) (uid : EntityUid) (c : Component)
    (h : HasOneEntityData t) : HasOneEntityData (t.add_component uid c).2 := by
  unfold EcTable.add_component
  split
  · exact h
  · next row h1 =>
      split
      · exact h
      · next hg =>
          intro p hp
          rcases mem_alistModify hp with hpd | ⟨v, hv, hpv⟩
          · exact h p hpd
          · have hrow : (v.map Prod.fst).count ComponentKey.entityData = 1 :=
              h (uid, v) (alistGet_eq_some_mem hv)
            have hvrow : v = row := by
              rw [h1] at hv
              exact (Option.some_inj.mp hv).symm
            have hnm : c.get_key ∉ v.map Prod.fst := by
              intro hmem
              apply hg
              rw [get_component_eq_row (by rw [← hvrow] at h1; exact h1) c.get_key]
              rw [hvrow] at hmem
              rw [← hvrow] at hmem
              exact (alistGet_isSome_iff v c.get_key).mpr hmem
            have hne : c.get_key ≠ ComponentKey.entityData := by
              intro heq
              rw [heq] at hnm
              exact hnm (mem_of_count_entityData_one hrow)
            rw [hpv]
            show ((alistInsert v c.get_key c).map Prod.fst).count ComponentKey.entityData = 1
            rw [count_entityData_alistInsert_ne c hne hnm]
            exact hrow

theorem hasOne_addComponentList : ∀ (cs : List Component) (t : EcTable) (uid : EntityUid),
    HasOneEntityData t → HasOneEntityData (addComponentList t uid cs).2 := by
  intro cs
  induction cs with
  | nil => intro t uid h; exact h
  | cons c rest ih =>
      intro t uid h
      have h1 := hasOne_add_component t uid c h
      unfold addComponentList
      rcases hadd : t.add_component uid c with ⟨r, t1⟩
      rw [hadd] at h1
      cases r with
      | ok u =>
          show HasOneEntityData (addComponentList t1 uid rest).2
          exact ih t1 uid h1
      | error e => exact h1

theorem hasOne_remove_component (t : EcTable) (uid : EntityUid) (key : ComponentKey)
    (h : HasOneEntityData t) : HasOneEntityData (t.remove_component uid key).2 := by
  unfold EcTable.remove_component
  split
  · exact h
  · split
    · exact h
    · split
      · exact h
      · next hne =>
          intro p hp
          rcases mem_alistModify hp with hpd | ⟨v, hv, hpv⟩
          · exact h p hpd
          · have hrow : (v.map Prod.fst).count ComponentKey.entityData = 1 :=
              h (uid, v) (alistGet_eq_some_mem hv)
            rw [hpv]
            show ((alistRemove v key).map Prod.fst).count ComponentKey.entityData = 1
            rw [count_fst_alistRemove_of_ne hne]
            exact hrow

theorem hasOne_delete_entity (t : EcTable) (uid : EntityUid)
    (h : HasOneEntityData t) : HasOneEntityData (t.delete_entity uid).2 := by
  unfold EcTable.delete_entity
  split
  · exact h
  · intro p hp
    exact h p (mem_alistRemove hp)

theorem hasOne_create_entity (t : EcTable) (g : UidGen) (name : String)
    (cs : List Component) (h : HasOneEntityData t) :
    HasOneEntityData (t.create_entity g name cs).2.1 := by
  simp only [EcTable.create_entity]
  have h1 : HasOneEntityData
      (⟨alistInsert t.table (pickUid t g).1
        [(ComponentKey.entityData, Component.entityData name (pickUid t g).1 true)]⟩ : EcTable) := by
    intro p hp
    rcases mem_alistInsert hp with hpd | hpd
    · rw [hpd]
      simp
    · exact h p hpd
  have h2 := hasOne_addComponentList cs
    ⟨alistInsert t.table (pickUid t g).1
      [(ComponentKey.entityData, Component.entityData name (pickUid t g).1 true)]⟩
    (pickUid t g).1 h1
  rcases hadd : addComponentList
      ⟨alistInsert t.table (pickUid t g).1
        [(ComponentKey.entityData, Component.entityData name (pickUid t g).1 true)]⟩
      (pickUid t g).1 cs with ⟨r, t2⟩
  rw [hadd] at h2
  cases r with
  | ok u => exact h2
  | error e => exact h2

theorem hasOne_applyOp {s : EcState} (op : EcOp) (h : HasOneEntityData s.table) :
    HasOneEntityData (applyOp s op).table := by
  cases op with
  | create name comps =>
      simp only [applyOp]
      exact hasOne_create_entity s.table s.gen name comps h
  | delete uid => exact hasOne_delete_entity s.table uid h
  | addComp uid c => exact hasOne_add_component s.table uid c h
  | removeComp uid key => exact hasOne_remove_component s.table uid key h

theorem hasOne_runOps : ∀ (ops : List EcOp) (s : EcState),
    HasOneEntityData s.table → HasOneEntityData (runOps s ops).table := by
  intro ops
  induction ops with
  | nil => intro s h; exact h
  | cons op rest ih => intro s h; exact ih _ (hasOne_applyOp op h)

theorem hasOne_init : HasOneEntityData initState.table := by
  intro p hp
  simp [initState] at hp

/-- C1: entity identities are process-unique.  Starting from a fresh process
run, for every sequence of table operations the identities allocated by
`create_entity` (generate, check-not-present, regenerate on collision) are
strictly increasing, hence pairwise distinct, and an identity that is live
before a delete operation is never allocated again afterwards. -/
theorem c1_uid_allocation_unique (ops : List EcOp) :
    (allocTrace initState ops).Pairwise (· < ·)
    ∧ (allocTrace initState ops).Nodup
    ∧ ∀ pre uid post, ops = pre ++ EcOp.delete uid :: post →
        uid ∈ tableKeys (runOps initState pre).table →
        uid ∉ allocTrace (runOps initState (pre ++ [EcOp.delete uid])) post := by
  have hpw := (allocTrace_bounds ops initState uidsBounded_init).2
  refine ⟨hpw, ?_, ?_⟩
  · show List.Pairwise (fun a b => a ≠ b) (allocTrace initState ops)
    exact List.Pairwise.imp (fun h => Nat.ne_of_lt h) hpw
  · intro pre uid post hops hmem hin
    obtain ⟨hb1, _⟩ := uidsBounded_runOps pre initState uidsBounded_init
    have huid : uid < (runOps initState pre).gen.next := hb1 uid hmem
    have hs2 : runOps initState (pre ++ [EcOp.delete uid])
        = applyOp (runOps initState pre) (EcOp.delete uid) := by
      rw [runOps_append]
      rfl
    obtain ⟨hb2, _⟩ :=
      uidsBounded_applyOp (s := runOps initState pre) (EcOp.delete uid) hb1
    have hlb :=
      (allocTrace_bounds post (applyOp (runOps initState pre) (EcOp.delete uid)) hb2).1
    rw [hs2] at hin
    have hge := hlb uid hin
    have hgeq : (applyOp (runOps initState pre) (EcOp.delete uid)).gen
        = (runOps initState pre).gen := rfl
    rw [hgeq] at hge
    exact absurd hge (Nat.not_le.mpr huid)

/-- Witness for C1 at a concrete run: create, delete the created entity,
create again; the deleted identity 0 is not allocated again. -/
theorem c1_uid_allocation_unique_witness :
    (0 : EntityUid) ∉ allocTrace
      (runOps initState ([EcOp.create "a" []] ++ [EcOp.delete 0]))
      [EcOp.create "b" []] :=
  (c1_uid_allocation_unique [EcOp.create "a" [], EcOp.delete 0, EcOp.create "b" []]).2.2
    [EcOp.create "a" []] 0 [EcOp.create "b" []] rfl (by decide)

/-- C2: mandatory-component invariant.  After any sequence of operations
from a fresh run, every live row of the table holds exactly one EntityData
entry, and `get_component(uid, EntityData)` is never `None` for a live uid;
remove_component can never remove it since the invariant is preserved by
every operation. -/
theorem c2_entity_data_mandatory (ops : List EcOp) :
    HasOneEntityData (runOps initState ops).table
    ∧ ∀ uid, (alistGet (runOps initState ops).table.table uid).isSome →
        ((runOps initState ops).table.get_component uid ComponentKey.entityData).isSome := by
  have h1 := hasOne_runOps ops initState hasOne_init
  refine ⟨h1, ?_⟩
  intro uid hlive
  rcases hrow : alistGet (runOps initState ops).table.table uid with _ | row
  · rw [hrow] at hlive
    simp at hlive
  · have hcnt := h1 (uid, row) (alistGet_eq_some_mem hrow)
    have hmem := mem_of_count_entityData_one hcnt
    rw [get_component_eq_row hrow]
    exact (alistGet_isSome_iff row ComponentKey.entityData).mpr hmem

/-- Witness for C2 at a concrete run: after one create, the EntityData
component of the created entity is present. -/
theorem c2_entity_data_mandatory_witness :
    ((runOps initState [EcOp.create "player" []]).table.get_component 0
      ComponentKey.entityData).isSome :=
  (c2_entity_data_mandatory [EcOp.create "player" []]).2 0 (by decide)

/-- C3: query matching.  Membership in `get_entities_by_components` with
`partitial = false` is exactly liveness plus presence of every given key
(logical AND, vacuous on the empty key list), and with `partitial = true`
liveness plus presence of at least one given key (logical OR). -/
theorem c3_query_matching (t : EcTable) (keys : List ComponentKey) (uid : EntityUid) :
    ((⟨uid⟩ : Entity) ∈ t.get_entities_by_components keys false ↔
      ((alistGet t.table uid).isSome ∧ ∀ k ∈ keys, (t.get_component uid k).isSome))
    ∧ ((⟨uid⟩ : Entity) ∈ t.get_entities_by_components keys true ↔
      ((alistGet t.table uid).isSome ∧ ∃ k ∈ keys, (t.get_component uid k).isSome))
    ∧ (∀ e : Entity, e ∈ t.get_entities_by_components [] false ↔
        (alistGet t.table e.uid).isSome) := by
  refine ⟨?_, ?_, ?_⟩
  · simp [EcTable.get_entities_by_components, List.mem_filter, List.mem_map,
      List.all_eq_true, mem_tableKeys_iff]
  · simp [EcTable.get_entities_by_components, List.mem_filter, List.mem_map,
      List.any_eq_true, mem_tableKeys_iff]
  · intro e
    obtain ⟨u⟩ := e
    simp [EcTable.get_entities_by_components, List.mem_filter, List.mem_map,
      mem_tableKeys_iff]

/-- C4: add_component contract.  On an absent entity it raises
`UnknownEntityUidError`; on a live entity that already holds a component of
the same type it raises `ComponentsCollisionError` and the previously
attached instance (and the whole table) is unchanged; otherwise it succeeds
and the component is inserted under its type key. -/
theorem c4_add_component_contract (t : EcTable) (uid : EntityUid) (c : Component) :
    (alistGet t.table uid = none →
      t.add_component uid c = (.error (.unknownEntityUid uid), t))
    ∧ (∀ c0, t.get_component uid c.get_key = some c0 →
        t.add_component uid c = (.error (.componentsCollision uid c), t)
        ∧ (t.add_component uid c).2.get_component uid c.get_key = some c0)
    ∧ ((alistGet t.table uid).isSome → t.get_component uid c.get_key = none →
        (t.add_component uid c).1 = .ok ()
        ∧ (t.add_component uid c).2.get_component uid c.get_key = some c) := by
  refine ⟨?_, ?_, ?_⟩
  · intro h
    simp [EcTable.add_component, h]
  · intro c0 h
    have hlive : (alistGet t.table uid).isSome :=
      get_component_isSome_live (by rw [h]; rfl)
    rcases hrow : alistGet t.table uid with _ | row
    · rw [hrow] at hlive
      simp at hlive
    · have he : t.add_component uid c = (.error (.componentsCollision uid c), t) := by
        simp [EcTable.add_component, hrow, h]
      exact ⟨he, by rw [he]; exact h⟩
  · intro hlive hnone
    rcases hrow : alistGet t.table uid with _ | row
    · rw [hrow] at hlive
      simp at hlive
    · have hok : t.add_component uid c
          = (.ok (), ⟨alistModify t.table uid (fun row => alistInsert row c.get_key c)⟩) := by
        simp [EcTable.add_component, hrow, hnone]
      refine ⟨by rw [hok], ?_⟩
      rw [hok]
      show EcTable.get_component _ uid c.get_key = some c
      rw [EcTable.get_component]
      show alistGet ((alistGet (alistModify t.table uid
        (fun row => alistInsert row c.get_key c)) uid).getD []) c.get_key = some c
      rw [alistGet_alistModify_self, hrow]
      simp [alistGet_alistInsert_self]

/-- Witness for C4 at a concrete input: adding a fresh component type to the
sample entity succeeds and stores the component under its type key. -/
theorem c4_add_component_contract_witness :
    (tSample.add_component 0 cB).1 = .ok ()
    ∧ (tSample.add_component 0 cB).2.get_component 0 cB.get_key = some cB :=
  (c4_add_component_contract tSample 0 cB).2.2 rfl rfl

/-- C5: evaluation at the failing input of the `EcsManager.get_entity_by_uid`
default-handling bug.  With an empty table and uid 7: the newer
`EcTable.get_entity_by_uid` returns a supplied default 42 unchanged and
raises without a default, distinguishing "no default" by the MISSING
sentinel; the legacy `EcsManager.get_entity_by_uid` raises correctly
without a default, but with default 42 it returns an entity handle for the
absent uid 7 instead of the default, contradicting its own docstring. -/
theorem c5_get_entity_default_divergence :
    EcTable.get_entity_by_uid ⟨[]⟩ 7 (PyValue.int 42) = .ok (PyValue.int 42)
    ∧ EcTable.get_entity_by_uid ⟨[]⟩ 7 = .error (.unknownEntityUid 7)
    ∧ ecsManagerGetEntityByUid ⟨[]⟩ 7 (PyValue.int 42) = .ok (.entity ⟨7⟩)
    ∧ ecsManagerGetEntityByUid ⟨[]⟩ 7 = .error (.unknownEntityUid 7) :=
  ⟨rfl, rfl, rfl, rfl⟩

/-- C6: remove_component contract.  On an absent entity it raises
`UnknownEntityUidError`; on a live entity without the component it is a
no-op returning the table unchanged; on a live entity holding EntityData
(every reachable live entity does, by C2) removing the EntityData key
raises `EntityDataRemovalAttemptError`. -/
theorem c6_remove_component_contract (t : EcTable) (uid : EntityUid) (key : ComponentKey) :
    (alistGet t.table uid = none →
      t.remove_component uid key = (.error (.unknownEntityUid uid), t))
    ∧ ((alistGet t.table uid).isSome → t.get_component uid key = none →
        t.remove_component uid key = (.ok (), t))
    ∧ ((t.get_component uid ComponentKey.entityData).isSome →
        t.remove_component uid ComponentKey.entityData
          = (.error (.entityDataRemovalAttempt uid), t)) := by
  refine ⟨?_, ?_, ?_⟩
  · intro h
    simp [EcTable.remove_component, h]
  · intro hlive hnone
    rcases hrow : alistGet t.table uid with _ | row
    · rw [hrow] at hlive
      simp at hlive
    · simp [EcTable.remove_component, hrow, hnone]
  · intro hsome
    have hlive := get_component_isSome_live hsome
    rcases hrow : alistGet t.table uid with _ | row
    · rw [hrow] at hlive
      simp at hlive
    · rcases hg : t.get_component uid ComponentKey.entityData with _ | c
      · rw [hg] at hsome
        simp at hsome
      · simp [EcTable.remove_component, hrow, hg]

/-- Witness for C6 at a concrete input: removing EntityData from the sample
entity raises and leaves the table unchanged. -/
theorem c6_remove_component_contract_witness :
    tSample.remove_component 0 ComponentKey.entityData
      = (.error (.entityDataRemovalAttempt 0), tSample) :=
  (c6_remove_component_contract tSample 0 ComponentKey.entityData).2.2 rfl

/-- C7: system matching.  For a live entity, `match_entity` is true exactly
when the entity row contains every required component key; a system with an
empty requirement set matches every entity. -/
theorem c7_match_entity (s : System) (t : EcTable) (uid : EntityUid)
    (_hlive : (alistGet t.table uid).isSome) :
    (s.match_entity t uid = true ↔
      ∀ k ∈ s.required_components,
        k ∈ ((alistGet t.table uid).getD []).map Prod.fst)
    ∧ (s.required_components = [] → s.match_entity t uid = true) := by
  constructor
  · simp only [System.match_entity, List.all_eq_true, EcTable.get_component,
      alistGet_isSome_iff]
  · intro h
    rw [System.match_entity, h]
    rfl

/-- Witness for C7 at a concrete input: the sample entity and a system
requiring the component key it holds. -/
theorem c7_match_entity_witness :
    ((⟨[kA]⟩ : System).match_entity tSample 0 = true ↔
      ∀ k ∈ (⟨[kA]⟩ : System).required_components,
        k ∈ ((alistGet tSample.table 0).getD []).map Prod.fst)
    ∧ ((⟨[kA]⟩ : System).required_components = [] →
        (⟨[kA]⟩ : System).match_entity tSample 0 = true) :=
  c7_match_entity ⟨[kA]⟩ tSample 0 rfl

/-- C8: pipeline-once guarantee.  One `Scene.start()` executes every system
of the start pipeline exactly once, and three `Scene.update()` calls
execute every system of the update pipeline exactly three times. -/
theorem c8_pipeline_once (sch : SystemsSchedule) (sysId : Nat)
    (hs : sch.start.systems.Nodup) (hu : sch.update.systems.Nodup) :
    (sysId ∈ sch.start.systems → (sceneStartTrace sch).count sysId = 1)
    ∧ (sysId ∈ sch.update.systems → (sceneUpdatesTrace sch 3).count sysId = 3) := by
  constructor
  · intro hmem
    exact List.count_eq_one_of_mem hs hmem
  · intro hmem
    have h1 : (sch.update.run).count sysId = 1 := List.count_eq_one_of_mem hu hmem
    show ((List.replicate 3 sch.update.run).flatten).count sysId = 3
    simp [List.replicate_succ, List.count_append, h1]

/-- Witness for C8 at a concrete schedule: system 1 of the start pipeline
runs once, system 3 of the update pipeline runs three times. -/
theorem c8_pipeline_once_witness :
    (sceneStartTrace schSample).count 1 = 1
    ∧ (sceneUpdatesTrace schSample 3).count 3 = 3 :=
  ⟨(c8_pipeline_once schSample 1 (by decide) (by decide)).1 (by decide),
   (c8_pipeline_once schSample 3 (by decide) (by decide)).2 (by decide)⟩

/-- C9: a system with an empty required-component set matches a uid that is
entirely absent from the table - the universal quantification over zero
required keys holds vacuously and never consults the table. -/
theorem c9_empty_requirements_match_absent (t : EcTable) (uid : EntityUid)
    (_habs : alistGet t.table uid = none) :
    System.match_entity ⟨[]⟩ t uid = true := rfl

/-- Witness for C9 at a concrete input: the empty table and uid 5. -/
theorem c9_empty_requirements_match_absent_witness :
    System.match_entity ⟨[]⟩ (⟨[]⟩ : EcTable) 5 = true :=
  c9_empty_requirements_match_absent ⟨[]⟩ 5 rfl

/-- C10: atomicity on error.  Whenever add_component or remove_component
raises, the table is exactly as it was before the call: every error check
precedes any mutation. -/
theorem c10_error_atomicity (t : EcTable) (uid : EntityUid) (c : Component)
    (key : ComponentKey) :
    (∀ e, (t.add_component uid c).1 = .error e → (t.add_component uid c).2 = t)
    ∧ (∀ e, (t.remove_component uid key).1 = .error e →
        (t.remove_component uid key).2 = t) := by
  constructor
  · intro e he
    rcases hrow : alistGet t.table uid with _ | row
    · simp [EcTable.add_component, hrow]
    · rcases hg : t.get_component uid c.get_key with _ | c0
      · exfalso
        simp [EcTable.add_component, hrow, hg] at he
      · simp [EcTable.add_component, hrow, hg]
  · intro e he
    rcases hrow : alistGet t.table uid with _ | row
    · simp [EcTable.remove_component, hrow]
    · rcases hg : t.get_component uid key with _ | c0
      · exfalso
        simp [EcTable.remove_component, hrow, hg] at he
      · by_cases hk : key = ComponentKey.entityData
        · subst hk
          simp [EcTable.remove_component, hrow, hg]
        · exfalso
          simp [EcTable.remove_component, hrow, hg, hk] at he

/-- Witness for C10 at a concrete input: add_component on an empty table
errors and leaves the table unchanged. -/
theorem c10_error_atomicity_witness :
    ((⟨[]⟩ : EcTable).add_component 0 cA).2 = (⟨[]⟩ : EcTable) :=
  (c10_error_atomicity ⟨[]⟩ 0 cA kA).1 (.unknownEntityUid 0) rfl

end SpaceRanger
